import Mathlib

/-!
Shallow embedding of the cauldron-brewing state engine
(src/mc-cauldron-brew/src/lib.rs) and of the brute-force breadth-first
solver (src/lib/mc-cauldron-bruteforce/src/main.rs).

The Rust `LiquidData` wraps a `u16`; we model `u16` values as `Nat` and
insert an explicit `% 65536` (or a 16-bit mask) exactly where the Rust
`u16` arithmetic could wrap or complement.  The 15-cell boolean array of
`FungalAutomaton` is modelled as the `Nat` below `2 ^ 15` whose bit `i`
is cell `i`; `WrappingArr::index` (which uses `rem_euclid`) becomes
`Int.emod` on the index.
-/

/-- Embeds `PotionIngredient` from src/mc-cauldron-brew/src/lib.rs. -/
inductive PotionIngredient where
  | Sugar
  | GhastTear
  | SpiderEye
  | FermentedSpiderEye
  | BlazePowder
  | MagmaCream
deriving DecidableEq

/-- Embeds `PotionIngredient::added_bits`: the bits that are set by this ingredient. -/
def PotionIngredient.added_bits : PotionIngredient → List Nat
  | .Sugar => [0]
  | .GhastTear => [11]
  | .SpiderEye => [5, 7, 10]
  | .FermentedSpiderEye => [9, 14]
  | .BlazePowder => [14]
  | .MagmaCream => [1, 6, 14]

/-- Embeds `LiquidData::apply_ingredient`: OR each listed bit into the value. -/
def apply_ingredient (v : Nat) (ingredient : PotionIngredient) : Nat :=
  ingredient.added_bits.foldl (fun acc bit => acc ||| (1 <<< bit)) v

/-- Embeds `LiquidData::dilute`: AND with the `u16` complement of the mask of
bits {1,3,5,7,9,11,13}.  The Rust `!` on `u16` is XOR with 65535. -/
def dilute (v : Nat) : Nat :=
  v &&&
    (65535 ^^^
      ((1 <<< 1) ||| (1 <<< 3) ||| (1 <<< 5) ||| (1 <<< 7) ||| (1 <<< 9) ||| (1 <<< 11) |||
        (1 <<< 13)))

/-- Executable model of `u16::leading_zeros`: scanning bits 0..15 upward and
remembering `15 - i` for the last set bit seen leaves exactly the count of
leading zero bits of the 16-bit value (16 when `v` has no set bit). -/
def u16_leading_zeros (v : Nat) : Nat :=
  (List.range 16).foldl (fun acc (i : Nat) => if v.testBit i then 15 - i else acc) 16

/-- Embeds `math::first_set`: `15 - v.leading_zeros()` computed in `i32`. -/
def first_set (v : Nat) : Int :=
  15 - (u16_leading_zeros v : Int)

/-- Embeds `LiquidData::apply_wart_stage_1`.  The left shift is `u16`
arithmetic, hence the `% 65536`. -/
def apply_wart_stage_1 (v : Nat) : Nat :=
  if v &&& 1 = 0 then v
  else
    let fs := first_set v
    if fs < 2 ∨ v &&& (1 <<< (fs - 1).toNat) ≠ 0 then v
    else ((v &&& (65535 ^^^ (1 <<< fs.toNat))) <<< 1) % 65536 ||| (3 <<< (fs - 1).toNat)

/-- Embeds `WrappingArr::index` as used through `FungalAutomaton`: cell `i`
of configuration `c` (a 15-bit mask) with the index wrapped by `rem_euclid 15`. -/
def autCell (c : Nat) (i : Int) : Bool := c.testBit (i.emod 15).toNat

/-- Embeds `FungalAutomaton::next`: one generation of the automaton,
building the new configuration cell by cell from an all-false default. -/
def autNext (c : Nat) : Nat :=
  (List.range 15).foldl
    (fun acc (i : Nat) =>
      let should_set :=
        if autCell c (i : Int) then
          (autCell c ((i : Int) + 1) || !autCell c ((i : Int) + 2)) &&
            (autCell c ((i : Int) - 1) || !autCell c ((i : Int) - 2))
        else autCell c ((i : Int) - 1) && autCell c ((i : Int) + 1)
      if should_set then acc ||| (1 <<< i) else acc)
    0

/-- Embeds `FungalAutomaton::new`: read bits 0..14 of `v` into the cells. -/
def autNew (v : Nat) : Nat :=
  (List.range 15).foldl
    (fun acc (i : Nat) => if v.testBit i then acc ||| (1 <<< i) else acc) 0

/-- Embeds `impl Into<u16> for FungalAutomaton`: write the cells back into
bits 0..14 of an integer. -/
def autToNat (c : Nat) : Nat :=
  (List.range 15).foldl
    (fun acc (i : Nat) => if autCell c (i : Int) then acc ||| (1 <<< i) else acc) 0

/-- Embeds the `while current != next` convergence loop of
`LiquidData::apply_automaton`, with explicit fuel.  The Rust loop has no
fuel; theorem `convergeLoop_fix` below shows that for every 15-bit input
the fuel `32770` is never exhausted, so on the program's actual domain
this function and the Rust loop agree. -/
def convergeLoop : Nat → Nat → Nat → Nat
  | 0, current, _ => current
  | fuel + 1, current, next =>
    if current = next then current else convergeLoop fuel next (autNext next)

/-- Embeds `LiquidData::apply_automaton`: strip the highest set bit, run the
automaton to a fixed point starting from `current = default`, convert back,
and OR the stripped bit back in. -/
def apply_automaton (v : Nat) : Nat :=
  let fs := first_set v
  let without_leading_bits := if 0 ≤ fs then v &&& (65535 ^^^ (1 <<< fs.toNat)) else v
  let evolved := autToNat (convergeLoop 32770 0 (autNew without_leading_bits))
  if 0 ≤ fs then evolved ||| (1 <<< fs.toNat) else evolved

/-- Embeds `LiquidData::apply_wart`: stage 1 followed by the automaton stage. -/
def apply_wart (v : Nat) : Nat := apply_automaton (apply_wart_stage_1 v)

/-- Embeds the solver action type `Action` from src/lib/mc-cauldron-bruteforce/src/main.rs. -/
inductive BrewAction where
  | AddIngredient (i : PotionIngredient)
  | Dilute
  | AddNetherWart
deriving DecidableEq

/-- Embeds `Action::apply_to`. -/
def BrewAction.apply_to : BrewAction → Nat → Nat
  | .AddIngredient i, v => apply_ingredient v i
  | .Dilute, v => dilute v
  | .AddNetherWart, v => apply_wart v

/-- Embeds `ALL_ACTIONS`, in its declared (canonical) order. -/
def ALL_ACTIONS : List BrewAction :=
  [.AddIngredient .Sugar, .AddIngredient .GhastTear, .AddIngredient .SpiderEye,
    .AddIngredient .FermentedSpiderEye, .AddIngredient .BlazePowder,
    .AddIngredient .MagmaCream, .Dilute, .AddNetherWart]

/-- Applies a sequence of actions left to right, as the solver does when it
extends a recorded path one action at a time. -/
def runPath (path : List BrewAction) (start : Nat) : Nat :=
  path.foldl (fun st a => a.apply_to st) start

/-- The solver's `solutions` vector: for each state value, the optional
action sequence recorded for it. -/
abbrev SolutionTable := Nat → Option (List BrewAction)

/-- Writing one entry of the solutions table. -/
def tableSet (t : SolutionTable) (s : Nat) (p : List BrewAction) : SolutionTable :=
  fun x => if x = s then some p else t x

/-- Embeds the inner `for action in ALL_ACTIONS.iter()` loop of `main`:
try each action from `prev_state`; a state whose entry is still `none` gets
the extended path recorded and is pushed onto the next round's queue. -/
def expandActions :
    List BrewAction → SolutionTable → List (List BrewAction × Nat) → List BrewAction → Nat →
      SolutionTable × List (List BrewAction × Nat)
  | [], t, nq, _, _ => (t, nq)
  | action :: rest, t, nq, prev_actions, prev_state =>
    let state := action.apply_to prev_state
    match t state with
    | some _ => expandActions rest t nq prev_actions prev_state
    | none =>
      let actions := prev_actions ++ [action]
      expandActions rest (tableSet t state actions) (nq ++ [(actions, state)]) prev_actions
        prev_state

/-- Embeds the `for (prev_actions, prev_state) in queue` loop of one BFS
round: every queued pair is expanded in order, threading the table and the
next round's queue. -/
def processQueue :
    List (List BrewAction × Nat) → SolutionTable → List (List BrewAction × Nat) →
      SolutionTable × List (List BrewAction × Nat)
  | [], t, nq => (t, nq)
  | (prev_actions, prev_state) :: rest, t, nq =>
    let r := expandActions ALL_ACTIONS t nq prev_actions prev_state
    processQueue rest r.1 r.2

/-- One level-synchronized BFS round of `main`: consume the whole queue,
producing the updated table and the next queue. -/
def bfsRound (st : SolutionTable × List (List BrewAction × Nat)) :
    SolutionTable × List (List BrewAction × Nat) :=
  processQueue st.2 st.1 []

/-- The solver's initial state: entry 0 holds the empty path and the queue
holds the single pair `([], 0)` (plain water). -/
def bfsInit : SolutionTable × List (List BrewAction × Nat) :=
  (fun s => if s = 0 then some [] else none, [([], 0)])

/-- The solver's table and queue after `d` BFS rounds. -/
def bfsIter (d : Nat) : SolutionTable × List (List BrewAction × Nat) :=
  bfsRound^[d] bfsInit

/-- The common shape of the automaton's bit-building loops. -/
def setBitsUpTo (g : Nat → Bool) (n : Nat) : Nat :=
  (List.range n).foldl (fun acc (i : Nat) => if g i then acc ||| (1 <<< i) else acc) 0

lemma setBitsUpTo_succ (g : Nat → Bool) (n : Nat) :
    setBitsUpTo g (n + 1) =
      if g n then setBitsUpTo g n ||| (1 <<< n) else setBitsUpTo g n := by
  simp [setBitsUpTo, List.range_succ]

lemma setBitsUpTo_lt (g : Nat → Bool) (n : Nat) : setBitsUpTo g n < 2 ^ n := by
  induction n with
  | zero => simp [setBitsUpTo]
  | succ n ih =>
    rw [setBitsUpTo_succ]
    have hpow : (2 : Nat) ^ n < 2 ^ (n + 1) := by
      have := Nat.pow_lt_pow_succ (a := 2) one_lt_two (n := n)
      exact this
    have h1 : (1 <<< n) < 2 ^ (n + 1) := by
      rw [Nat.shiftLeft_eq, one_mul]; exact hpow
    have h2 : setBitsUpTo g n < 2 ^ (n + 1) := lt_trans ih hpow
    split
    · exact Nat.or_lt_two_pow h2 h1
    · exact h2

lemma setBitsUpTo_testBit (g : Nat → Bool) (n j : Nat) :
    (setBitsUpTo g n).testBit j = (decide (j < n) && g j) := by
  induction n with
  | zero => simp [setBitsUpTo]
  | succ n ih =>
    rw [setBitsUpTo_succ]
    have hsl : (1 <<< n).testBit j = decide (n = j) := by
      rw [Nat.shiftLeft_eq, one_mul]; exact Nat.testBit_two_pow
    cases hgn : g n
    · rw [if_neg (by simp), ih]
      rcases Nat.lt_trichotomy j n with h | h | h
      · have h1 : j < n + 1 := by omega
        simp [h, h1]
      · subst h; simp [hgn]
      · have h1 : ¬(j < n) := by omega
        have h2 : ¬(j < n + 1) := by omega
        simp [h1, h2]
    · rw [if_pos rfl, Nat.testBit_or, ih, hsl]
      rcases Nat.lt_trichotomy j n with h | h | h
      · have h1 : j < n + 1 := by omega
        have h2 : ¬(n = j) := by omega
        simp [h, h1, h2]
      · subst h; simp [hgn]
      · have h1 : ¬(j < n) := by omega
        have h2 : ¬(j < n + 1) := by omega
        have h3 : ¬(n = j) := by omega
        simp [h1, h2, h3]

/-- The per-cell rule of `FungalAutomaton::next`, extracted from the loop body. -/
def autNextRule (c : Nat) (i : Nat) : Bool :=
  if autCell c (i : Int) then
    (autCell c ((i : Int) + 1) || !autCell c ((i : Int) + 2)) &&
      (autCell c ((i : Int) - 1) || !autCell c ((i : Int) - 2))
  else autCell c ((i : Int) - 1) && autCell c ((i : Int) + 1)

lemma autNext_eq_setBits (c : Nat) : autNext c = setBitsUpTo (autNextRule c) 15 := rfl

lemma autNew_eq_setBits (v : Nat) : autNew v = setBitsUpTo v.testBit 15 := rfl

lemma autToNat_eq_setBits (c : Nat) :
    autToNat c = setBitsUpTo (fun i => autCell c (i : Int)) 15 := rfl

lemma autNext_lt (c : Nat) : autNext c < 32768 := by
  have := setBitsUpTo_lt (autNextRule c) 15
  rw [autNext_eq_setBits]; norm_num at this ⊢; exact this

lemma autNew_lt (v : Nat) : autNew v < 32768 := by
  have := setBitsUpTo_lt v.testBit 15
  rw [autNew_eq_setBits]; norm_num at this ⊢; exact this

lemma autToNat_lt (c : Nat) : autToNat c < 32768 := by
  have := setBitsUpTo_lt (fun i => autCell c (i : Int)) 15
  rw [autToNat_eq_setBits]; norm_num at this ⊢; exact this

lemma autNext_testBit (c j : Nat) :
    (autNext c).testBit j = (decide (j < 15) && autNextRule c j) := by
  rw [autNext_eq_setBits, setBitsUpTo_testBit]

lemma autNew_testBit (v j : Nat) :
    (autNew v).testBit j = (decide (j < 15) && v.testBit j) := by
  rw [autNew_eq_setBits, setBitsUpTo_testBit]

/-- Bit-parallel form of one automaton generation, used only to make the
exhaustive convergence check computationally feasible; `autNext_eq_fastNext`
proves it agrees with the cell-for-cell `autNext` on every 15-bit
configuration. -/
def fastNext (c : Nat) : Nat :=
  let p1 := (c >>> 1) ||| ((c &&& 1) <<< 14)
  let p2 := (c >>> 2) ||| ((c &&& 3) <<< 13)
  let m1 := ((c <<< 1) &&& 32767) ||| (c >>> 14)
  let m2 := ((c <<< 2) &&& 32767) ||| (c >>> 13)
  (c &&& ((p1 ||| (32767 ^^^ p2)) &&& (m1 ||| (32767 ^^^ m2)))) |||
    ((32767 ^^^ c) &&& (m1 &&& p1))

lemma testBit_32767 (k : Nat) : (32767 : Nat).testBit k = decide (k < 15) := by
  have h : (32767 : Nat) = 2 ^ 15 - 1 := by norm_num
  rw [h, Nat.testBit_two_pow_sub_one]

lemma ite_bool (t a b : Bool) : (if t = true then a else b) = (t && a) || (!t && b) := by
  cases t <;> simp

lemma or_lt_32768 {x y : Nat} (hx : x < 32768) (hy : y < 32768) : x ||| y < 32768 := by
  have h := Nat.or_lt_two_pow (x := x) (y := y) (n := 15) (by norm_num; exact hx)
    (by norm_num; exact hy)
  norm_num at h
  exact h

lemma xor_lt_32768 {x y : Nat} (hx : x < 32768) (hy : y < 32768) : x ^^^ y < 32768 := by
  have h := Nat.xor_lt_two_pow (x := x) (y := y) (n := 15) (by norm_num; exact hx)
    (by norm_num; exact hy)
  norm_num at h
  exact h

lemma fastNext_lt (c : Nat) (hc : c < 32768) : fastNext c < 32768 := by
  unfold fastNext
  exact or_lt_32768 (lt_of_le_of_lt Nat.and_le_left hc)
    (lt_of_le_of_lt Nat.and_le_left (xor_lt_32768 (by norm_num) hc))

theorem autNext_eq_fastNext (c : Nat) (hc : c < 32768) : autNext c = fastNext c := by
  have hhi : ∀ k : Nat, 15 ≤ k → c.testBit k = false := by
    intro k hk
    apply Nat.testBit_lt_two_pow
    calc c < 32768 := hc
      _ = 2 ^ 15 := by norm_num
      _ ≤ 2 ^ k := Nat.pow_le_pow_right (by norm_num) hk
  apply Nat.eq_of_testBit_eq
  intro j
  by_cases hj : j < 15
  · rw [autNext_testBit]
    interval_cases j <;>
      · simp only [fastNext, Nat.testBit_or, Nat.testBit_and, Nat.testBit_xor,
          Nat.testBit_shiftLeft, Nat.testBit_shiftRight, testBit_32767]
        have h31 : Nat.testBit 3 1 = true := rfl
        norm_num [autNextRule, autCell, hhi, h31, Int.toNat_ofNat]
        split <;> rename_i h <;> (try simp at h) <;> simp [h]
  · have hlhs : (autNext c).testBit j = false := by
      rw [autNext_testBit]; simp [hj]
    have hrhs : (fastNext c).testBit j = false := by
      apply Nat.testBit_lt_two_pow
      calc fastNext c < 32768 := fastNext_lt c hc
        _ = 2 ^ 15 := by norm_num
        _ ≤ 2 ^ j := Nat.pow_le_pow_right (by norm_num) (by omega)
    rw [hlhs, hrhs]

/-- Convergence within the given fuel, computed over `fastNext`; used for
the exhaustive 32768-state convergence check. -/
def fastConv : Nat → Nat → Bool
  | 0, c => fastNext c == c
  | fuel + 1, c =>
    let n := fastNext c
    n == c || fastConv fuel n

/-- Balanced conjunction of `f` over the `2 ^ d` values `2 ^ d * lo + i`;
keeps the evaluation stack logarithmic for the exhaustive check. -/
def allTree (f : Nat → Bool) : Nat → Nat → Bool
  | 0, lo => f lo
  | d + 1, lo => allTree f d (2 * lo) && allTree f d (2 * lo + 1)

lemma allTree_combine (f : Nat → Bool) (d lo : Nat)
    (h1 : allTree f d (2 * lo) = true) (h2 : allTree f d (2 * lo + 1) = true) :
    allTree f (d + 1) lo = true := by
  show (allTree f d (2 * lo) && allTree f d (2 * lo + 1)) = true
  rw [h1, h2]
  rfl

lemma allTree_spec (f : Nat → Bool) :
    ∀ d lo, allTree f d lo = true → ∀ i, i < 2 ^ d → f (2 ^ d * lo + i) = true := by
  intro d
  induction d with
  | zero =>
    intro lo h i hi
    interval_cases i
    simpa [allTree] using h
  | succ d ih =>
    intro lo h i hi
    have h2 : (allTree f d (2 * lo) && allTree f d (2 * lo + 1)) = true := h
    rw [Bool.and_eq_true] at h2
    have hpow : 2 ^ (d + 1) = 2 * 2 ^ d := by rw [pow_succ]; ring
    by_cases hsplit : i < 2 ^ d
    · have hres := ih (2 * lo) h2.1 i hsplit
      have harith : 2 ^ d * (2 * lo) + i = 2 ^ (d + 1) * lo + i := by
        rw [hpow]; ring
      rwa [harith] at hres
    · have hi2 : i - 2 ^ d < 2 ^ d := by omega
      have hres := ih (2 * lo + 1) h2.2 (i - 2 ^ d) hi2
      have harith : 2 ^ d * (2 * lo + 1) + (i - 2 ^ d) = 2 ^ (d + 1) * lo + i := by
        have hexp : 2 ^ d * (2 * lo + 1) = 2 ^ (d + 1) * lo + 2 ^ d := by rw [hpow]; ring
        omega
      rwa [harith] at hres

lemma fastConv_sound :
    ∀ fuel c, c < 32768 → fastConv fuel c = true →
      ∃ m, m ≤ fuel ∧ autNext^[m + 1] c = autNext^[m] c := by
  intro fuel
  induction fuel with
  | zero =>
    intro c hc h
    have hfc : fastNext c = c := by
      have hb : (fastNext c == c) = true := h
      simpa using hb
    refine ⟨0, le_refl 0, ?_⟩
    simpa [autNext_eq_fastNext c hc] using hfc
  | succ fuel ih =>
    intro c hc h
    by_cases hfc : fastNext c = c
    · refine ⟨0, by omega, ?_⟩
      simpa [autNext_eq_fastNext c hc] using hfc
    · have h2 : fastConv fuel (fastNext c) = true := by
        have hh : ((fastNext c == c) || fastConv fuel (fastNext c)) = true := h
        rw [Bool.or_eq_true] at hh
        rcases hh with hh | hh
        · exact absurd (by simpa using hh) hfc
        · exact hh
      obtain ⟨m, hm, hf⟩ := ih (fastNext c) (fastNext_lt c hc) h2
      rw [← autNext_eq_fastNext c hc] at hf
      refine ⟨m + 1, by omega, ?_⟩
      rw [Function.iterate_succ_apply autNext (m + 1) c, Function.iterate_succ_apply autNext m c]
      exact hf

lemma convergeLoop_moves :
    ∀ fuel cur, (∃ m, m < fuel ∧ autNext^[m + 1] cur = autNext^[m] cur) →
      ∃ n, convergeLoop (fuel + 1) cur (autNext cur) = autNext^[n] cur ∧
        autNext (autNext^[n] cur) = autNext^[n] cur := by
  intro fuel
  induction fuel with
  | zero =>
    intro cur h
    obtain ⟨m, hm, _⟩ := h
    omega
  | succ fuel ih =>
    intro cur h
    by_cases hfix : cur = autNext cur
    · refine ⟨0, ?_, ?_⟩
      · show (if cur = autNext cur then cur else _) = autNext^[0] cur
        rw [if_pos hfix]
        simp
      · simpa using hfix.symm
    · have hstep : convergeLoop (fuel + 1 + 1) cur (autNext cur) =
          convergeLoop (fuel + 1) (autNext cur) (autNext (autNext cur)) := by
        show (if cur = autNext cur then cur else _) = _
        rw [if_neg hfix]
      obtain ⟨m, hm, hfm⟩ := h
      have hm0 : m ≠ 0 := by
        intro h0
        subst h0
        simp only [Function.iterate_one, Function.iterate_zero, id_eq] at hfm
        exact hfix hfm.symm
      have h' : ∃ k, k < fuel ∧ autNext^[k + 1] (autNext cur) = autNext^[k] (autNext cur) := by
        refine ⟨m - 1, by omega, ?_⟩
        rw [← Function.iterate_succ_apply, ← Function.iterate_succ_apply]
        have hms : m - 1 + 1 + 1 = m + 1 := by omega
        have hms2 : m - 1 + 1 = m := by omega
        show autNext^[m - 1 + 1 + 1] cur = autNext^[m - 1 + 1] cur
        rw [hms, hms2]
        exact hfm
      obtain ⟨n, hn, hfix2⟩ := ih (autNext cur) h'
      refine ⟨n + 1, ?_, ?_⟩
      · rw [hstep, hn, ← Function.iterate_succ_apply]
      · rw [Function.iterate_succ_apply]
        exact hfix2

lemma convergeLoop_spec (x : Nat)
    (h : ∃ m, m ≤ 13 ∧ autNext^[m + 1] x = autNext^[m] x) :
    ∃ n, convergeLoop 32770 0 x = autNext^[n] x ∧
      autNext (convergeLoop 32770 0 x) = convergeLoop 32770 0 x := by
  by_cases hx : x = 0
  · subst hx
    have h0 : convergeLoop 32770 0 0 = 0 := by
      show (if (0 : Nat) = 0 then (0 : Nat) else _) = 0
      rw [if_pos rfl]
    have hfix0 : autNext 0 = 0 := by decide
    exact ⟨0, by simpa using h0, by rw [h0]; exact hfix0⟩
  · have hstep : convergeLoop 32770 0 x = convergeLoop 32769 x (autNext x) := by
      show (if (0 : Nat) = x then (0 : Nat) else _) = _
      rw [if_neg (fun hh => hx hh.symm)]
    obtain ⟨n, hn, hfx⟩ := convergeLoop_moves 32768 x
      (by obtain ⟨m, hm, hf⟩ := h; exact ⟨m, by omega, hf⟩)
    exact ⟨n, by rw [hstep]; exact hn, by rw [hstep, hn]; exact hfx⟩

/-! The exhaustive convergence check: `fastConv 13 v = true` for every
`v < 32768`, verified by kernel evaluation in 32 balanced chunks of
1024 states each (13 is the maximum number of generations any 15-bit
configuration needs before reaching its fixed point). -/

set_option maxRecDepth 100000 in
set_option maxHeartbeats 10000000 in
lemma conv_chunk0 : allTree (fun v => fastConv 13 v) 10 0 = true := by rfl

set_option maxRecDepth 100000 in
set_option maxHeartbeats 10000000 in
lemma conv_chunk1 : allTree (fun v => fastConv 13 v) 10 1 = true := by rfl

set_option maxRecDepth 100000 in
set_option maxHeartbeats 10000000 in
lemma conv_chunk2 : allTree (fun v => fastConv 13 v) 10 2 = true := by rfl

set_option maxRecDepth 100000 in
set_option maxHeartbeats 10000000 in
lemma conv_chunk3 : allTree (fun v => fastConv 13 v) 10 3 = true := by rfl

set_option maxRecDepth 100000 in
set_option maxHeartbeats 10000000 in
lemma conv_chunk4 : allTree (fun v => fastConv 13 v) 10 4 = true := by rfl

set_option maxRecDepth 100000 in
set_option maxHeartbeats 10000000 in
lemma conv_chunk5 : allTree (fun v => fastConv 13 v) 10 5 = true := by rfl

set_option maxRecDepth 100000 in
set_option maxHeartbeats 10000000 in
lemma conv_chunk6 : allTree (fun v => fastConv 13 v) 10 6 = true := by rfl

set_option maxRecDepth 100000 in
set_option maxHeartbeats 10000000 in
lemma conv_chunk7 : allTree (fun v => fastConv 13 v) 10 7 = true := by rfl

set_option maxRecDepth 100000 in
set_option maxHeartbeats 10000000 in
lemma conv_chunk8 : allTree (fun v => fastConv 13 v) 10 8 = true := by rfl

set_option maxRecDepth 100000 in
set_option maxHeartbeats 10000000 in
lemma conv_chunk9 : allTree (fun v => fastConv 13 v) 10 9 = true := by rfl

set_option maxRecDepth 100000 in
set_option maxHeartbeats 10000000 in
lemma conv_chunk10 : allTree (fun v => fastConv 13 v) 10 10 = true := by rfl

set_option maxRecDepth 100000 in
set_option maxHeartbeats 10000000 in
lemma conv_chunk11 : allTree (fun v => fastConv 13 v) 10 11 = true := by rfl

set_option maxRecDepth 100000 in
set_option maxHeartbeats 10000000 in
lemma conv_chunk12 : allTree (fun v => fastConv 13 v) 10 12 = true := by rfl

set_option maxRecDepth 100000 in
set_option maxHeartbeats 10000000 in
lemma conv_chunk13 : allTree (fun v => fastConv 13 v) 10 13 = true := by rfl

set_option maxRecDepth 100000 in
set_option maxHeartbeats 10000000 in
lemma conv_chunk14 : allTree (fun v => fastConv 13 v) 10 14 = true := by rfl

set_option maxRecDepth 100000 in
set_option maxHeartbeats 10000000 in
lemma conv_chunk15 : allTree (fun v => fastConv 13 v) 10 15 = true := by rfl

set_option maxRecDepth 100000 in
set_option maxHeartbeats 10000000 in
lemma conv_chunk16 : allTree (fun v => fastConv 13 v) 10 16 = true := by rfl

set_option maxRecDepth 100000 in
set_option maxHeartbeats 10000000 in
lemma conv_chunk17 : allTree (fun v => fastConv 13 v) 10 17 = true := by rfl

set_option maxRecDepth 100000 in
set_option maxHeartbeats 10000000 in
lemma conv_chunk18 : allTree (fun v => fastConv 13 v) 10 18 = true := by rfl

set_option maxRecDepth 100000 in
set_option maxHeartbeats 10000000 in
lemma conv_chunk19 : allTree (fun v => fastConv 13 v) 10 19 = true := by rfl

set_option maxRecDepth 100000 in
set_option maxHeartbeats 10000000 in
lemma conv_chunk20 : allTree (fun v => fastConv 13 v) 10 20 = true := by rfl

set_option maxRecDepth 100000 in
set_option maxHeartbeats 10000000 in
lemma conv_chunk21 : allTree (fun v => fastConv 13 v) 10 21 = true := by rfl

set_option maxRecDepth 100000 in
set_option maxHeartbeats 10000000 in
lemma conv_chunk22 : allTree (fun v => fastConv 13 v) 10 22 = true := by rfl

set_option maxRecDepth 100000 in
set_option maxHeartbeats 10000000 in
lemma conv_chunk23 : allTree (fun v => fastConv 13 v) 10 23 = true := by rfl

set_option maxRecDepth 100000 in
set_option maxHeartbeats 10000000 in
lemma conv_chunk24 : allTree (fun v => fastConv 13 v) 10 24 = true := by rfl

set_option maxRecDepth 100000 in
set_option maxHeartbeats 10000000 in
lemma conv_chunk25 : allTree (fun v => fastConv 13 v) 10 25 = true := by rfl

set_option maxRecDepth 100000 in
set_option maxHeartbeats 10000000 in
lemma conv_chunk26 : allTree (fun v => fastConv 13 v) 10 26 = true := by rfl

set_option maxRecDepth 100000 in
set_option maxHeartbeats 10000000 in
lemma conv_chunk27 : allTree (fun v => fastConv 13 v) 10 27 = true := by rfl

set_option maxRecDepth 100000 in
set_option maxHeartbeats 10000000 in
lemma conv_chunk28 : allTree (fun v => fastConv 13 v) 10 28 = true := by rfl

set_option maxRecDepth 100000 in
set_option maxHeartbeats 10000000 in
lemma conv_chunk29 : allTree (fun v => fastConv 13 v) 10 29 = true := by rfl

set_option maxRecDepth 100000 in
set_option maxHeartbeats 10000000 in
lemma conv_chunk30 : allTree (fun v => fastConv 13 v) 10 30 = true := by rfl

set_option maxRecDepth 100000 in
set_option maxHeartbeats 10000000 in
lemma conv_chunk31 : allTree (fun v => fastConv 13 v) 10 31 = true := by rfl

lemma fastConvTreeAll : allTree (fun v => fastConv 13 v) 15 0 = true := by
  have d11_0 := allTree_combine (fun v => fastConv 13 v) 10 0 conv_chunk0 conv_chunk1
  have d11_1 := allTree_combine (fun v => fastConv 13 v) 10 1 conv_chunk2 conv_chunk3
  have d11_2 := allTree_combine (fun v => fastConv 13 v) 10 2 conv_chunk4 conv_chunk5
  have d11_3 := allTree_combine (fun v => fastConv 13 v) 10 3 conv_chunk6 conv_chunk7
  have d11_4 := allTree_combine (fun v => fastConv 13 v) 10 4 conv_chunk8 conv_chunk9
  have d11_5 := allTree_combine (fun v => fastConv 13 v) 10 5 conv_chunk10 conv_chunk11
  have d11_6 := allTree_combine (fun v => fastConv 13 v) 10 6 conv_chunk12 conv_chunk13
  have d11_7 := allTree_combine (fun v => fastConv 13 v) 10 7 conv_chunk14 conv_chunk15
  have d11_8 := allTree_combine (fun v => fastConv 13 v) 10 8 conv_chunk16 conv_chunk17
  have d11_9 := allTree_combine (fun v => fastConv 13 v) 10 9 conv_chunk18 conv_chunk19
  have d11_10 := allTree_combine (fun v => fastConv 13 v) 10 10 conv_chunk20 conv_chunk21
  have d11_11 := allTree_combine (fun v => fastConv 13 v) 10 11 conv_chunk22 conv_chunk23
  have d11_12 := allTree_combine (fun v => fastConv 13 v) 10 12 conv_chunk24 conv_chunk25
  have d11_13 := allTree_combine (fun v => fastConv 13 v) 10 13 conv_chunk26 conv_chunk27
  have d11_14 := allTree_combine (fun v => fastConv 13 v) 10 14 conv_chunk28 conv_chunk29
  have d11_15 := allTree_combine (fun v => fastConv 13 v) 10 15 conv_chunk30 conv_chunk31
  have d12_0 := allTree_combine (fun v => fastConv 13 v) 11 0 d11_0 d11_1
  have d12_1 := allTree_combine (fun v => fastConv 13 v) 11 1 d11_2 d11_3
  have d12_2 := allTree_combine (fun v => fastConv 13 v) 11 2 d11_4 d11_5
  have d12_3 := allTree_combine (fun v => fastConv 13 v) 11 3 d11_6 d11_7
  have d12_4 := allTree_combine (fun v => fastConv 13 v) 11 4 d11_8 d11_9
  have d12_5 := allTree_combine (fun v => fastConv 13 v) 11 5 d11_10 d11_11
  have d12_6 := allTree_combine (fun v => fastConv 13 v) 11 6 d11_12 d11_13
  have d12_7 := allTree_combine (fun v => fastConv 13 v) 11 7 d11_14 d11_15
  have d13_0 := allTree_combine (fun v => fastConv 13 v) 12 0 d12_0 d12_1
  have d13_1 := allTree_combine (fun v => fastConv 13 v) 12 1 d12_2 d12_3
  have d13_2 := allTree_combine (fun v => fastConv 13 v) 12 2 d12_4 d12_5
  have d13_3 := allTree_combine (fun v => fastConv 13 v) 12 3 d12_6 d12_7
  have d14_0 := allTree_combine (fun v => fastConv 13 v) 13 0 d13_0 d13_1
  have d14_1 := allTree_combine (fun v => fastConv 13 v) 13 1 d13_2 d13_3
  exact allTree_combine (fun v => fastConv 13 v) 14 0 d14_0 d14_1

lemma fastConvAll (v : Nat) (hv : v < 32768) : fastConv 13 v = true := by
  have h := allTree_spec (fun x => fastConv 13 x) 15 0 fastConvTreeAll v
    (by norm_num; exact hv)
  simpa using h

lemma autConvergesAll (x : Nat) (hx : x < 32768) :
    ∃ m, m ≤ 13 ∧ autNext^[m + 1] x = autNext^[m] x :=
  fastConv_sound 13 x hx (fastConvAll x hx)

lemma testBit_65535 (k : Nat) : (65535 : Nat).testBit k = decide (k < 16) := by
  have h : (65535 : Nat) = 2 ^ 16 - 1 := by norm_num
  rw [h, Nat.testBit_two_pow_sub_one]

lemma two_pow_le_of_testBit (v P : Nat) (hP : v.testBit P = true) : 2 ^ P ≤ v := by
  by_contra hlt
  push_neg at hlt
  rw [Nat.testBit_lt_two_pow hlt] at hP
  exact Bool.false_ne_true hP

lemma u16_leading_zeros_spec (v P : Nat) (hP : v.testBit P = true)
    (hHi : ∀ j, P < j → v.testBit j = false) (hP16 : P < 16) :
    u16_leading_zeros v = 15 - P := by
  have aux : ∀ m, P + 1 ≤ m →
      (List.range m).foldl (fun acc (i : Nat) => if v.testBit i then 15 - i else acc) 16 =
        15 - P := by
    intro m hm
    induction m, hm using Nat.le_induction with
    | base =>
      rw [List.range_succ, List.foldl_append]
      simp [hP]
    | succ m hm ih =>
      rw [List.range_succ, List.foldl_append]
      simp [hHi m (by omega), ih]
  exact aux 16 (by omega)

lemma first_set_eq (v P : Nat) (hP : v.testBit P = true)
    (hHi : ∀ j, P < j → v.testBit j = false) (hP16 : P < 16) :
    first_set v = (P : Int) := by
  rw [first_set, u16_leading_zeros_spec v P hP hHi hP16]
  omega

lemma and_two_pow_ne_zero (v k : Nat) : v &&& 2 ^ k ≠ 0 ↔ v.testBit k = true := by
  constructor
  · intro h
    by_contra htb
    have htb' : v.testBit k = false := by
      cases hb : v.testBit k
      · rfl
      · exact absurd hb htb
    apply h
    apply Nat.eq_of_testBit_eq
    intro j
    rw [Nat.testBit_and, Nat.zero_testBit, Nat.testBit_two_pow]
    by_cases hkj : k = j
    · subst hkj; simp [htb']
    · simp [hkj]
  · intro h h0
    have := congrArg (fun x => x.testBit k) h0
    simp only [Nat.testBit_and, h, Nat.testBit_two_pow_self, Bool.and_true,
      Nat.zero_testBit] at this
    exact absurd this (by decide)

lemma mask_clear_top (v P : Nat) (hP : v.testBit P = true)
    (hHi : ∀ j, P < j → v.testBit j = false) (hP15 : P < 15) :
    v &&& (65535 ^^^ (1 <<< P)) = v % 2 ^ P := by
  apply Nat.eq_of_testBit_eq
  intro j
  rw [Nat.shiftLeft_eq, one_mul, Nat.testBit_and, Nat.testBit_xor, testBit_65535,
    Nat.testBit_two_pow, Nat.testBit_mod_two_pow]
  rcases Nat.lt_trichotomy j P with h | h | h
  · have h1 : j < 16 := by omega
    have h2 : ¬(P = j) := by omega
    simp [h, h1, h2]
  · subst h
    simp [hP, show j < 16 from by omega]
  · have h2 : ¬(P = j) := by omega
    have h3 : ¬(j < P) := by omega
    rw [hHi j h]
    simp [h2, h3]

lemma stage1_bit0_clear (v : Nat) (hb0 : v.testBit 0 = false) :
    apply_wart_stage_1 v = v := by
  have h1 : v &&& 1 = 0 := by
    rw [Nat.and_one_is_mod]
    rw [Nat.testBit_zero] at hb0
    simp at hb0
    omega
  simp [apply_wart_stage_1, h1]

lemma stage1_eval (v P : Nat) (hv : v < 32768) (hb0 : v.testBit 0 = true)
    (hP : v.testBit P = true) (hHi : ∀ j, P < j → v.testBit j = false) :
    ((P < 2 ∨ v.testBit (P - 1) = true) → apply_wart_stage_1 v = v) ∧
    (¬(P < 2 ∨ v.testBit (P - 1) = true) →
      apply_wart_stage_1 v = (v - 2 ^ P) * 2 ||| (2 ^ P + 2 ^ (P - 1))) := by
  have hP15 : P < 15 := by
    by_contra hge
    push_neg at hge
    have : v < 2 ^ P := lt_of_lt_of_le (by norm_num; exact hv)
      (Nat.pow_le_pow_right (by norm_num) hge)
    rw [Nat.testBit_lt_two_pow this] at hP
    exact Bool.false_ne_true hP
  have hand1 : ¬(v &&& 1 = 0) := by
    rw [Nat.and_one_is_mod]
    rw [Nat.testBit_zero] at hb0
    simp at hb0
    omega
  have hfs : first_set v = (P : Int) := first_set_eq v P hP hHi (by omega)
  have htn1 : ((P : Int) - 1).toNat = P - 1 := by omega
  have htn : (P : Int).toNat = P := by omega
  have hcond : ((first_set v < 2 ∨ v &&& (1 <<< (first_set v - 1).toNat) ≠ 0)) ↔
      (P < 2 ∨ v.testBit (P - 1) = true) := by
    rw [hfs, htn1]
    constructor
    · rintro (h | h)
      · left; exact_mod_cast h
      · right
        rw [Nat.shiftLeft_eq, one_mul] at h
        exact (and_two_pow_ne_zero v (P - 1)).mp h
    · rintro (h | h)
      · left; exact_mod_cast h
      · right
        rw [Nat.shiftLeft_eq, one_mul, and_two_pow_ne_zero]
        exact h
  constructor
  · intro hc
    rw [apply_wart_stage_1, if_neg hand1, if_pos (hcond.mpr hc)]
  · intro hc
    rw [apply_wart_stage_1, if_neg hand1, if_neg (fun h => hc (hcond.mp h))]
    have hPge2 : 2 ≤ P := by
      by_contra hlt
      exact hc (Or.inl (by omega))
    have hvlt : v < 2 ^ (P + 1) := by
      apply Nat.lt_pow_two_of_testBit
      intro i hi
      exact hHi i (by omega)
    have hvge : 2 ^ P ≤ v := two_pow_le_of_testBit v P hP
    rw [hfs, htn, htn1]
    have hmask : v &&& (65535 ^^^ (1 <<< P)) = v - 2 ^ P := by
      rw [mask_clear_top v P hP hHi hP15]
      have hpow2 : 2 ^ (P + 1) = 2 * 2 ^ P := by rw [pow_succ]; ring
      have hmod : v % 2 ^ P = (v - 2 ^ P) % 2 ^ P := by
        rw [Nat.mod_eq_sub_mod hvge]
      rw [hmod, Nat.mod_eq_of_lt (by omega)]
    rw [hmask]
    have hsub : v - 2 ^ P < 2 ^ P := by
      have hpow2 : 2 ^ (P + 1) = 2 * 2 ^ P := by rw [pow_succ]; ring
      omega
    have hshift : (v - 2 ^ P) <<< 1 = (v - 2 ^ P) * 2 := by
      rw [Nat.shiftLeft_eq, pow_one]
    have hP14 : P ≤ 14 := by omega
    have hplt : 2 ^ P ≤ 2 ^ 14 := Nat.pow_le_pow_right (by norm_num) hP14
    have hmodv : ((v - 2 ^ P) * 2) % 65536 = (v - 2 ^ P) * 2 := by
      apply Nat.mod_eq_of_lt
      omega
    rw [hshift, hmodv]
    have h3 : (3 : Nat) <<< (P - 1) = 2 ^ P + 2 ^ (P - 1) := by
      rw [Nat.shiftLeft_eq]
      have hpp : 2 ^ P = 2 * 2 ^ (P - 1) := by
        rw [← pow_succ']
        congr 1
        omega
      omega
    rw [h3]

lemma stage1_lt (v : Nat) (hv : v < 32768) : apply_wart_stage_1 v < 32768 := by
  by_cases hb0 : v.testBit 0 = true
  · have hv0 : v ≠ 0 := by
      intro h
      subst h
      simp [Nat.zero_testBit] at hb0
    obtain ⟨P, hP, hHi⟩ := Nat.exists_most_significant_bit hv0
    have heval := stage1_eval v P hv hb0 hP hHi
    by_cases hc : P < 2 ∨ v.testBit (P - 1) = true
    · rw [heval.1 hc]; exact hv
    · rw [heval.2 hc]
      have hP15 : P < 15 := by
        by_contra hge
        push_neg at hge
        have : v < 2 ^ P := lt_of_lt_of_le (by norm_num; exact hv)
          (Nat.pow_le_pow_right (by norm_num) hge)
        rw [Nat.testBit_lt_two_pow this] at hP
        exact Bool.false_ne_true hP
      have hvlt : v < 2 ^ (P + 1) := by
        apply Nat.lt_pow_two_of_testBit
        intro i hi
        exact hHi i (by omega)
      have hvge : 2 ^ P ≤ v := two_pow_le_of_testBit v P hP
      have hpow2 : 2 ^ (P + 1) = 2 * 2 ^ P := by rw [pow_succ]; ring
      have hplt : 2 ^ P ≤ 2 ^ 14 := Nat.pow_le_pow_right (by norm_num) (by omega)
      have hplt1 : 2 ^ (P - 1) ≤ 2 ^ 13 := Nat.pow_le_pow_right (by norm_num) (by omega)
      apply or_lt_32768 <;> omega
  · have hb0' : v.testBit 0 = false := by
      cases hb : v.testBit 0
      · rfl
      · exact absurd hb hb0
    rw [stage1_bit0_clear v hb0']
    exact hv

lemma top_bit_lt_15 (w P : Nat) (hw : w < 32768) (hP : w.testBit P = true) : P < 15 := by
  by_contra hge
  push_neg at hge
  have : w < 2 ^ P := lt_of_lt_of_le (by norm_num; exact hw)
    (Nat.pow_le_pow_right (by norm_num) hge)
  rw [Nat.testBit_lt_two_pow this] at hP
  exact Bool.false_ne_true hP

lemma or_ne_zero_right (x y : Nat) (hy : y ≠ 0) : x ||| y ≠ 0 := by
  intro h
  obtain ⟨i, hi, _⟩ := Nat.exists_most_significant_bit hy
  have := congrArg (fun z => z.testBit i) h
  simp only [Nat.testBit_or, hi, Bool.or_true, Nat.zero_testBit] at this
  exact absurd this (by decide)

lemma stage1_ne_zero (v : Nat) (hv : v < 32768) (hv0 : v ≠ 0) :
    apply_wart_stage_1 v ≠ 0 := by
  by_cases hb0 : v.testBit 0 = true
  · obtain ⟨P, hP, hHi⟩ := Nat.exists_most_significant_bit hv0
    have heval := stage1_eval v P hv hb0 hP hHi
    by_cases hc : P < 2 ∨ v.testBit (P - 1) = true
    · rw [heval.1 hc]; exact hv0
    · rw [heval.2 hc]
      apply or_ne_zero_right
      have h1 := Nat.two_pow_pos P
      have h2 := Nat.two_pow_pos (P - 1)
      omega
  · have hb0' : v.testBit 0 = false := by
      cases hb : v.testBit 0
      · rfl
      · exact absurd hb hb0
    rw [stage1_bit0_clear v hb0']
    exact hv0

lemma apply_automaton_ne_zero (w : Nat) (hw : w < 32768) (hw0 : w ≠ 0) :
    apply_automaton w ≠ 0 := by
  obtain ⟨P, hP, hHi⟩ := Nat.exists_most_significant_bit hw0
  have hfs := first_set_eq w P hP hHi (by have := top_bit_lt_15 w P hw hP; omega)
  have hpos : (0 : Int) ≤ (P : Int) := Int.natCast_nonneg P
  simp only [apply_automaton, hfs, if_pos hpos]
  apply or_ne_zero_right
  have h1 : (1 : Nat) <<< (P : Int).toNat = 2 ^ (P : Int).toNat := by
    rw [Nat.shiftLeft_eq, one_mul]
  rw [h1]
  have h2 := Nat.two_pow_pos (P : Int).toNat
  omega

lemma apply_automaton_lt (w : Nat) (hw : w < 32768) : apply_automaton w < 32768 := by
  by_cases hw0 : w = 0
  · subst hw0
    decide
  · obtain ⟨P, hP, hHi⟩ := Nat.exists_most_significant_bit hw0
    have hP15 := top_bit_lt_15 w P hw hP
    have hfs := first_set_eq w P hP hHi (by omega)
    have hpos : (0 : Int) ≤ (P : Int) := Int.natCast_nonneg P
    simp only [apply_automaton, hfs, if_pos hpos]
    apply or_lt_32768 (autToNat_lt _)
    have htn : (P : Int).toNat = P := by omega
    rw [htn, Nat.shiftLeft_eq, one_mul]
    have : (2 : Nat) ^ P ≤ 2 ^ 14 := Nat.pow_le_pow_right (by norm_num) (by omega)
    omega

lemma apply_ingredient_lt (s : Nat) (hs : s < 32768) (ing : PotionIngredient) :
    apply_ingredient s ing < 32768 := by
  have hbits : ∀ b ∈ ing.added_bits, b < 15 := by
    cases ing <;> decide
  unfold apply_ingredient
  revert s hbits
  induction ing.added_bits with
  | nil =>
    intro s hs _
    simpa using hs
  | cons b rest ih =>
    intro s hs hb
    simp only [List.foldl_cons]
    apply ih
    · apply or_lt_32768 hs
      have hb15 : b < 15 := hb b (by simp)
      rw [Nat.shiftLeft_eq, one_mul]
      have : (2 : Nat) ^ b ≤ 2 ^ 14 := Nat.pow_le_pow_right (by norm_num) (by omega)
      omega
    · intro x hx
      exact hb x (by simp [hx])

lemma dilute_le (s : Nat) : dilute s ≤ s := Nat.and_le_left

lemma apply_wart_lt (s : Nat) (hs : s < 32768) : apply_wart s < 32768 :=
  apply_automaton_lt _ (stage1_lt s hs)

lemma dilute_eq_and (s : Nat) : dilute s = s &&& 54613 := rfl

lemma testBit_54613_true (k : Nat) (hk : k < 16)
    (hkn : k ∉ ([1, 3, 5, 7, 9, 11, 13] : List Nat)) :
    Nat.testBit 54613 k = true := by
  interval_cases k <;> first | exact absurd (by decide) hkn | decide

lemma dilute_frame_bit (s : Nat) (hs : s < 32768) (i : Nat)
    (hi : i ∉ ([1, 3, 5, 7, 9, 11, 13] : List Nat)) :
    (dilute s).testBit i = s.testBit i := by
  by_cases h16 : i < 16
  · rw [dilute_eq_and, Nat.testBit_and, testBit_54613_true i h16 hi, Bool.and_true]
  · have h2i : (2 : Nat) ^ 15 ≤ 2 ^ i := Nat.pow_le_pow_right (by norm_num) (by omega)
    have hsb : s.testBit i = false := Nat.testBit_lt_two_pow (by omega)
    rw [dilute_eq_and, Nat.testBit_and, hsb]
    simp

lemma dilute_no_set (s i : Nat) (h : (dilute s).testBit i = true) : s.testBit i = true := by
  rw [dilute_eq_and, Nat.testBit_and, Bool.and_eq_true] at h
  exact h.1

lemma dilute_idem (s : Nat) : dilute (dilute s) = dilute s := by
  rw [dilute_eq_and, dilute_eq_and, Nat.and_assoc,
    (by decide : (54613 : Nat) &&& 54613 = 54613)]

lemma autNext_rule_eval (c : Nat) (i : Nat) (hi : i < 15) :
    (autNext c).testBit i =
      (if c.testBit i = true then
        (c.testBit (((i : Int) + 1).emod 15).toNat ||
            !c.testBit (((i : Int) + 2).emod 15).toNat) &&
          (c.testBit (((i : Int) - 1).emod 15).toNat ||
            !c.testBit (((i : Int) - 2).emod 15).toNat)
      else
        c.testBit (((i : Int) - 1).emod 15).toNat &&
          c.testBit (((i : Int) + 1).emod 15).toNat) := by
  rw [autNext_testBit]
  have hmod : ((i : Int).emod 15).toNat = i := by
    have hmm : (i : Int).emod 15 = (i : Int) % 15 := rfl
    rw [hmm]
    omega
  simp [autNextRule, autCell, hi, hmod]

lemma expandActions_mono (acts : List BrewAction) (t : SolutionTable)
    (nq : List (List BrewAction × Nat)) (p : List BrewAction) (st s : Nat)
    (l : List BrewAction) (h : t s = some l) :
    (expandActions acts t nq p st).1 s = some l := by
  induction acts generalizing t nq with
  | nil => simpa [expandActions] using h
  | cons a rest ih =>
    simp only [expandActions]
    cases htb : t (a.apply_to st) with
    | some q => exact ih t nq h
    | none =>
      apply ih
      by_cases hss : s = a.apply_to st
      · rw [hss, htb] at h
        exact absurd h (by simp)
      · simpa [tableSet, hss] using h

lemma expandActions_nq_mono (acts : List BrewAction) (t : SolutionTable)
    (nq : List (List BrewAction × Nat)) (p : List BrewAction) (st : Nat) :
    ∃ add, (expandActions acts t nq p st).2 = nq ++ add := by
  induction acts generalizing t nq with
  | nil => exact ⟨[], by simp [expandActions]⟩
  | cons a rest ih =>
    simp only [expandActions]
    cases htb : t (a.apply_to st) with
    | some q => exact ih t nq
    | none =>
      obtain ⟨add, hadd⟩ := ih (tableSet t (a.apply_to st) (p ++ [a]))
        (nq ++ [(p ++ [a], a.apply_to st)])
      exact ⟨[(p ++ [a], a.apply_to st)] ++ add, by rw [hadd, List.append_assoc]⟩

lemma expandActions_covers (acts : List BrewAction) (t : SolutionTable)
    (nq : List (List BrewAction × Nat)) (p : List BrewAction) (st : Nat) :
    ∀ a ∈ acts, ((expandActions acts t nq p st).1 (a.apply_to st)).isSome := by
  induction acts generalizing t nq with
  | nil => intro a ha; exact absurd ha (List.not_mem_nil a)
  | cons b rest ih =>
    intro a ha
    simp only [expandActions]
    rcases List.mem_cons.mp ha with rfl | hmem
    · cases htb : t (a.apply_to st) with
      | some q =>
        have hm := expandActions_mono rest t nq p st (a.apply_to st) q htb
        simp [hm]
      | none =>
        have hset : (tableSet t (a.apply_to st) (p ++ [a])) (a.apply_to st) =
            some (p ++ [a]) := by simp [tableSet]
        have hm := expandActions_mono rest (tableSet t (a.apply_to st) (p ++ [a]))
          (nq ++ [(p ++ [a], a.apply_to st)]) p st (a.apply_to st) (p ++ [a]) hset
        simp [hm]
    · cases htb : t (b.apply_to st) with
      | some q => exact ih t nq a hmem
      | none => exact ih _ _ a hmem

lemma expandActions_new (acts : List BrewAction) (t : SolutionTable)
    (nq : List (List BrewAction × Nat)) (p : List BrewAction) (st s : Nat)
    (hnone : t s = none)
    (hsome : ((expandActions acts t nq p st).1 s).isSome) :
    s ∈ (expandActions acts t nq p st).2.map Prod.snd := by
  induction acts generalizing t nq with
  | nil =>
    simp only [expandActions] at hsome
    rw [hnone] at hsome
    exact absurd hsome (by simp)
  | cons a rest ih =>
    simp only [expandActions] at hsome ⊢
    cases htb : t (a.apply_to st) with
    | some q =>
      rw [htb] at hsome
      exact ih t nq hnone hsome
    | none =>
      rw [htb] at hsome
      by_cases hss : s = a.apply_to st
      · subst hss
        obtain ⟨add, hadd⟩ := expandActions_nq_mono rest
          (tableSet t (a.apply_to st) (p ++ [a]))
          (nq ++ [(p ++ [a], a.apply_to st)]) p st
        rw [hadd]
        simp
      · have hnone' : (tableSet t (a.apply_to st) (p ++ [a])) s = none := by
          simp [tableSet, hss, hnone]
        exact ih _ _ hnone' hsome

lemma expandActions_entries (acts : List BrewAction) (t : SolutionTable)
    (nq : List (List BrewAction × Nat)) (p : List BrewAction) (st s : Nat)
    (l : List BrewAction)
    (h : (expandActions acts t nq p st).1 s = some l) :
    t s = some l ∨ ∃ a, l = p ++ [a] := by
  induction acts generalizing t nq with
  | nil => left; simpa [expandActions] using h
  | cons a rest ih =>
    simp only [expandActions] at h
    cases htb : t (a.apply_to st) with
    | some q =>
      rw [htb] at h
      exact ih t nq h
    | none =>
      rw [htb] at h
      rcases ih _ _ h with hcase | hcase
      · by_cases hss : s = a.apply_to st
        · right
          subst hss
          simp only [tableSet, if_pos rfl] at hcase
          exact ⟨a, (Option.some_inj.mp hcase).symm⟩
        · left
          simpa [tableSet, hss] using hcase
      · right; exact hcase

lemma expandActions_nq_paths (acts : List BrewAction) (t : SolutionTable)
    (nq : List (List BrewAction × Nat)) (p : List BrewAction) (st : Nat) :
    ∀ pr ∈ (expandActions acts t nq p st).2, pr ∈ nq ∨ ∃ a, pr.1 = p ++ [a] := by
  induction acts generalizing t nq with
  | nil => intro pr hpr; left; simpa [expandActions] using hpr
  | cons a rest ih =>
    intro pr hpr
    simp only [expandActions] at hpr
    cases htb : t (a.apply_to st) with
    | some q =>
      rw [htb] at hpr
      exact ih t nq pr hpr
    | none =>
      rw [htb] at hpr
      rcases ih _ _ pr hpr with hcase | hcase
      · rcases List.mem_append.mp hcase with hin | hin
        · left; exact hin
        · right
          simp only [List.mem_singleton] at hin
          exact ⟨a, by rw [hin]⟩
      · right; exact hcase

lemma processQueue_mono (q : List (List BrewAction × Nat)) (t : SolutionTable)
    (nq : List (List BrewAction × Nat)) (s : Nat) (l : List BrewAction)
    (h : t s = some l) :
    (processQueue q t nq).1 s = some l := by
  induction q generalizing t nq with
  | nil => simpa [processQueue] using h
  | cons e rest ih =>
    obtain ⟨p, st⟩ := e
    simp only [processQueue]
    exact ih _ _ (expandActions_mono _ _ _ _ _ _ _ h)

lemma processQueue_nq_mono (q : List (List BrewAction × Nat)) (t : SolutionTable)
    (nq : List (List BrewAction × Nat)) :
    ∃ add, (processQueue q t nq).2 = nq ++ add := by
  induction q generalizing t nq with
  | nil => exact ⟨[], by simp [processQueue]⟩
  | cons e rest ih =>
    obtain ⟨p, st⟩ := e
    simp only [processQueue]
    obtain ⟨add1, hadd1⟩ := expandActions_nq_mono ALL_ACTIONS t nq p st
    obtain ⟨add2, hadd2⟩ := ih (expandActions ALL_ACTIONS t nq p st).1
      (expandActions ALL_ACTIONS t nq p st).2
    exact ⟨add1 ++ add2, by rw [hadd2, hadd1, List.append_assoc]⟩

lemma processQueue_covers (q : List (List BrewAction × Nat)) (t : SolutionTable)
    (nq : List (List BrewAction × Nat)) :
    ∀ pr ∈ q, ∀ a ∈ ALL_ACTIONS, ((processQueue q t nq).1 (a.apply_to pr.2)).isSome := by
  induction q generalizing t nq with
  | nil => intro pr hpr; exact absurd hpr (List.not_mem_nil pr)
  | cons e rest ih =>
    intro pr hpr a ha
    obtain ⟨p, st⟩ := e
    simp only [processQueue]
    rcases List.mem_cons.mp hpr with rfl | hmem
    · have hcov := expandActions_covers ALL_ACTIONS t nq p st a ha
      obtain ⟨l', hl'⟩ := Option.isSome_iff_exists.mp hcov
      have hm := processQueue_mono rest (expandActions ALL_ACTIONS t nq p st).1
        (expandActions ALL_ACTIONS t nq p st).2 (a.apply_to st) l' hl'
      simp [hm]
    · exact ih _ _ pr hmem a ha

lemma processQueue_new (q : List (List BrewAction × Nat)) (t : SolutionTable)
    (nq : List (List BrewAction × Nat)) (s : Nat)
    (hnone : t s = none)
    (hsome : ((processQueue q t nq).1 s).isSome) :
    s ∈ (processQueue q t nq).2.map Prod.snd := by
  induction q generalizing t nq with
  | nil =>
    simp only [processQueue] at hsome
    rw [hnone] at hsome
    exact absurd hsome (by simp)
  | cons e rest ih =>
    obtain ⟨p, st⟩ := e
    simp only [processQueue] at hsome ⊢
    cases hmid : (expandActions ALL_ACTIONS t nq p st).1 s with
    | none => exact ih _ _ hmid hsome
    | some l =>
      have hin := expandActions_new ALL_ACTIONS t nq p st s hnone (by simp [hmid])
      obtain ⟨add, hadd⟩ := processQueue_nq_mono rest
        (expandActions ALL_ACTIONS t nq p st).1 (expandActions ALL_ACTIONS t nq p st).2
      rw [hadd]
      rcases List.mem_map.mp hin with ⟨pr, hpr, hpr2⟩
      exact List.mem_map.mpr ⟨pr, List.mem_append.mpr (Or.inl hpr), hpr2⟩

lemma processQueue_entries (q : List (List BrewAction × Nat)) (t : SolutionTable)
    (nq : List (List BrewAction × Nat)) (s : Nat) (l : List BrewAction)
    (h : (processQueue q t nq).1 s = some l) :
    t s = some l ∨ ∃ pq ∈ q, ∃ a : BrewAction, l = pq.1 ++ [a] := by
  induction q generalizing t nq with
  | nil => left; simpa [processQueue] using h
  | cons e rest ih =>
    obtain ⟨p, st⟩ := e
    simp only [processQueue] at h
    rcases ih _ _ h with hcase | ⟨pq, hpq, a, ha⟩
    · rcases expandActions_entries ALL_ACTIONS t nq p st s l hcase with hc2 | ⟨a, ha⟩
      · left; exact hc2
      · right; exact ⟨(p, st), List.mem_cons_self _ _, a, ha⟩
    · right; exact ⟨pq, List.mem_cons_of_mem _ hpq, a, ha⟩

lemma processQueue_nq_paths (q : List (List BrewAction × Nat)) (t : SolutionTable)
    (nq : List (List BrewAction × Nat)) :
    ∀ pr ∈ (processQueue q t nq).2,
      pr ∈ nq ∨ ∃ pq ∈ q, ∃ a : BrewAction, pr.1 = pq.1 ++ [a] := by
  induction q generalizing t nq with
  | nil => intro pr hpr; left; simpa [processQueue] using hpr
  | cons e rest ih =>
    intro pr hpr
    obtain ⟨p, st⟩ := e
    simp only [processQueue] at hpr
    rcases ih _ _ pr hpr with hcase | ⟨pq, hpq, a, ha⟩
    · rcases expandActions_nq_paths ALL_ACTIONS t nq p st pr hcase with hc2 | ⟨a, ha⟩
      · left; exact hc2
      · right; exact ⟨(p, st), List.mem_cons_self _ _, a, ha⟩
    · right; exact ⟨pq, List.mem_cons_of_mem _ hpq, a, ha⟩

lemma bfsIter_succ (d : Nat) : bfsIter (d + 1) = bfsRound (bfsIter d) :=
  Function.iterate_succ_apply' bfsRound d bfsInit

lemma mem_ALL_ACTIONS (a : BrewAction) : a ∈ ALL_ACTIONS := by
  cases a with
  | AddIngredient i => cases i <;> decide
  | Dilute => decide
  | AddNetherWart => decide

lemma bfs_invariants (d : Nat) :
    (∀ s l, (bfsIter d).1 s = some l → l.length ≤ d) ∧
    (∀ pr ∈ (bfsIter d).2, pr.1.length = d) ∧
    (∀ s, ((bfsIter d).1 s).isSome →
      s ∈ (bfsIter d).2.map Prod.snd ∨
        ∀ a ∈ ALL_ACTIONS, ((bfsIter d).1 (a.apply_to s)).isSome) := by
  induction d with
  | zero =>
    refine ⟨?_, ?_, ?_⟩
    · intro s l h
      by_cases hs : s = 0
      · subst hs
        simp only [bfsIter, Function.iterate_zero, id_eq, bfsInit, if_pos rfl] at h
        rw [← Option.some_inj.mp h]
        rfl
      · simp [bfsIter, bfsInit, hs] at h
    · intro pr hpr
      simp only [bfsIter, Function.iterate_zero, id_eq, bfsInit, List.mem_singleton] at hpr
      rw [hpr]
      rfl
    · intro s hs
      left
      by_cases h0 : s = 0
      · subst h0
        simp [bfsIter, bfsInit]
      · exfalso
        simp [bfsIter, bfsInit, h0] at hs
  | succ d ih =>
    obtain ⟨ihE, ihQ, ihG⟩ := ih
    rw [bfsIter_succ]
    simp only [bfsRound]
    refine ⟨?_, ?_, ?_⟩
    · intro s l h
      rcases processQueue_entries _ _ _ _ _ h with hcase | ⟨pq, hpq, a, rfl⟩
      · exact le_trans (ihE s l hcase) (by omega)
      · rw [List.length_append, ihQ pq hpq]
        simp
    · intro pr hpr
      rcases processQueue_nq_paths _ _ _ pr hpr with hnil | ⟨pq, hpq, a, heq⟩
      · exact absurd hnil (List.not_mem_nil pr)
      · rw [heq, List.length_append, ihQ pq hpq]
        rfl
    · intro s hsome
      by_cases hnone : (bfsIter d).1 s = none
      · left
        exact processQueue_new _ _ _ _ hnone hsome
      · have hs' : ((bfsIter d).1 s).isSome := Option.ne_none_iff_isSome.mp hnone
        right
        intro a ha
        rcases ihG s hs' with hq | hexp
        · obtain ⟨pr, hpr, hpr2⟩ := List.mem_map.mp hq
          have hc := processQueue_covers (bfsIter d).2 (bfsIter d).1 [] pr hpr a ha
          rw [hpr2] at hc
          exact hc
        · obtain ⟨l', hl'⟩ := Option.isSome_iff_exists.mp (hexp a ha)
          have hm := processQueue_mono (bfsIter d).2 (bfsIter d).1 [] _ _ hl'
          simp [hm]

lemma bfs_complete : ∀ k s, (∃ l : List BrewAction, l.length ≤ k ∧ runPath l 0 = s) →
    ((bfsIter k).1 s).isSome := by
  intro k
  induction k with
  | zero =>
    rintro s ⟨l, hl, hrun⟩
    have hnil : l = [] := List.length_eq_zero.mp (by omega)
    subst hnil
    simp only [runPath, List.foldl_nil] at hrun
    subst hrun
    simp [bfsIter, bfsInit]
  | succ k ih =>
    rintro s ⟨l, hl, hrun⟩
    by_cases hlk : l.length ≤ k
    · have hk := ih s ⟨l, hlk, hrun⟩
      obtain ⟨l0, hl0⟩ := Option.isSome_iff_exists.mp hk
      rw [bfsIter_succ]
      simp only [bfsRound]
      have hm := processQueue_mono (bfsIter k).2 (bfsIter k).1 [] s l0 hl0
      simp [hm]
    · have hlen : l.length = k + 1 := by omega
      have hne : l ≠ [] := by
        intro h
        subst h
        simp at hlen
      obtain ⟨l', a, rfl⟩ : ∃ l' a, l = l' ++ [a] := by
        rcases List.eq_nil_or_concat l with h | ⟨L, b, h⟩
        · exact absurd h hne
        · exact ⟨L, b, by simpa [List.concat_eq_append] using h⟩
      have hrun' : a.apply_to (runPath l' 0) = s := by
        rw [← hrun]
        simp [runPath, List.foldl_append]
      have hl' : l'.length ≤ k := by
        simp only [List.length_append, List.length_singleton] at hlen
        omega
      have hsome' := ih (runPath l' 0) ⟨l', hl', rfl⟩
      rw [bfsIter_succ]
      simp only [bfsRound]
      rcases (bfs_invariants k).2.2 (runPath l' 0) hsome' with hq | hexp
      · obtain ⟨pr, hpr, hpr2⟩ := List.mem_map.mp hq
        have hc := processQueue_covers (bfsIter k).2 (bfsIter k).1 [] pr hpr a
          (mem_ALL_ACTIONS a)
        rw [hpr2, hrun'] at hc
        exact hc
      · obtain ⟨l0, hl0⟩ := Option.isSome_iff_exists.mp (hexp a (mem_ALL_ACTIONS a))
        have hmono := processQueue_mono (bfsIter k).2 (bfsIter k).1 [] _ _ hl0
        rw [hrun'] at hmono
        simp [hmono]

lemma bfsIter_le_mono (k i s : Nat) (l : List BrewAction)
    (h : (bfsIter k).1 s = some l) : (bfsIter (k + i)).1 s = some l := by
  induction i with
  | zero => simpa using h
  | succ i ih =>
    rw [show k + (i + 1) = (k + i) + 1 from rfl, bfsIter_succ]
    simp only [bfsRound]
    exact processQueue_mono _ _ _ _ _ ih

lemma bfs_zero (d : Nat) : (bfsIter d).1 0 = some [] := by
  induction d with
  | zero => simp [bfsIter, bfsInit]
  | succ d ih =>
    rw [bfsIter_succ]
    simp only [bfsRound]
    exact processQueue_mono _ _ _ _ _ ih

lemma bfs_minimal_core (d s : Nat) (l : List BrewAction)
    (h : (bfsIter d).1 s = some l) (l' : List BrewAction) (hrun : runPath l' 0 = s) :
    l.length ≤ l'.length := by
  by_contra hlt
  push_neg at hlt
  have hld : l.length ≤ d := (bfs_invariants d).1 s l h
  have hk := bfs_complete l'.length s ⟨l', le_refl _, hrun⟩
  obtain ⟨l0, hl0⟩ := Option.isSome_iff_exists.mp hk
  have hl0len : l0.length ≤ l'.length := (bfs_invariants l'.length).1 s l0 hl0
  have hmono := bfsIter_le_mono l'.length (d - l'.length) s l0 hl0
  rw [show l'.length + (d - l'.length) = d from by omega] at hmono
  have heq : l = l0 := Option.some_inj.mp (by rw [← h, hmono])
  have hlen : l.length = l0.length := by rw [heq]
  omega

/-- The `without_leading_bits` local of `LiquidData::apply_automaton`: the
stage-2 residual pattern, i.e. the input with its highest set bit removed
(the input itself when the highest-set-bit scan returned the sentinel). -/
def without_leading_bits (v : Nat) : Nat :=
  if 0 ≤ first_set v then v &&& (65535 ^^^ (1 <<< (first_set v).toNat)) else v

/-- C1: after any number of BFS rounds of the solver (in particular when the
search completes because the frontier empties), every recorded path of length
`L` in the solution table is minimal: no action sequence of length `< L`
maps the zero state to that state; and the entry for state 0 is the empty
sequence. -/
theorem bfs_recorded_paths_minimal (d s : Nat) (l : List BrewAction)
    (h : (bfsIter d).1 s = some l) :
    (∀ l' : List BrewAction, l'.length < l.length → runPath l' 0 ≠ s) ∧
    (bfsIter d).1 0 = some [] := by
  constructor
  · intro l' hlt hrun
    have := bfs_minimal_core d s l h l' hrun
    omega
  · exact bfs_zero d

/-- Witness for C1: the initial table (round 0) records the empty path for
state 0, and no shorter sequence reaches it. -/
theorem bfs_recorded_paths_minimal_witness :
    (∀ l' : List BrewAction, l'.length < ([] : List BrewAction).length →
      runPath l' 0 ≠ 0) ∧
    (bfsIter 0).1 0 = some [] :=
  bfs_recorded_paths_minimal 0 0 [] (by rfl)

/-- C2: stage 1 of the catalyst operation.  For a 15-bit state `v`: if bit 0
is clear the value is unchanged; otherwise, with `P` the highest set bit
position, if `P < 2` or bit `P-1` is set the value is unchanged, and
otherwise the result is the value with bit `P` cleared, shifted left once,
with bits `P-1` and `P` OR-ed in, and the result fits in 15 bits. -/
theorem apply_wart_stage_1_spec (v : Nat) (hv : v < 32768) :
    (v.testBit 0 = false → apply_wart_stage_1 v = v) ∧
    (v.testBit 0 = true → ∀ P : Nat,
      v.testBit P = true → (∀ j, P < j → v.testBit j = false) →
      ((P < 2 ∨ v.testBit (P - 1) = true) → apply_wart_stage_1 v = v) ∧
      (¬(P < 2 ∨ v.testBit (P - 1) = true) →
        apply_wart_stage_1 v = (v - 2 ^ P) * 2 ||| (2 ^ P + 2 ^ (P - 1)) ∧
          apply_wart_stage_1 v < 32768)) := by
  constructor
  · exact fun hb0 => stage1_bit0_clear v hb0
  · intro hb0 P hP hHi
    have heval := stage1_eval v P hv hb0 hP hHi
    exact ⟨heval.1, fun hc => ⟨heval.2 hc, stage1_lt v hv⟩⟩

/-- Witness for C2 at `v = 9` (bits 0 and 3): the carry/shift step yields
`14` and stays within 15 bits. -/
theorem apply_wart_stage_1_spec_witness :
    apply_wart_stage_1 9 = 14 ∧ apply_wart_stage_1 9 < 32768 := by
  have h := (apply_wart_stage_1_spec 9 (by decide)).2 (by decide) 3 (by decide)
    (fun j hj => Nat.testBit_lt_two_pow
      (lt_of_lt_of_le (by norm_num) (Nat.pow_le_pow_right (by norm_num) hj)))
  have h2 := h.2 (by decide)
  exact ⟨by rw [h2.1]; decide, h2.2⟩

/-- C3: stage 2 of the catalyst.  The highest set bit position is recomputed
(sentinel `-1` exactly for input 0), removed to form the residual, the
automaton is iterated from the residual until two successive generations
agree (some `n`-th iterate is a fixed point), the converged generation is
converted back to an integer and the removed bit is OR-ed back in when the
scan found one; and `apply_wart` is exactly stage 1 followed by this
stage 2. -/
theorem apply_wart_stage2_spec (v : Nat) (hv : v < 32768) :
    apply_wart v = apply_automaton (apply_wart_stage_1 v) ∧
    (v = 0 → first_set v = -1) ∧
    ∃ n : Nat,
      autNext (autNext^[n] (autNew (without_leading_bits v))) =
        autNext^[n] (autNew (without_leading_bits v)) ∧
      apply_automaton v =
        (if 0 ≤ first_set v then
          autToNat (autNext^[n] (autNew (without_leading_bits v))) |||
            (1 <<< (first_set v).toNat)
        else autToNat (autNext^[n] (autNew (without_leading_bits v)))) := by
  refine ⟨rfl, ?_, ?_⟩
  · intro h0
    subst h0
    decide
  · obtain ⟨n, hn, hfix⟩ := convergeLoop_spec (autNew (without_leading_bits v))
      (autConvergesAll _ (autNew_lt _))
    refine ⟨n, ?_, ?_⟩
    · rw [← hn]
      exact hfix
    · show (if 0 ≤ first_set v then
          autToNat (convergeLoop 32770 0 (autNew (without_leading_bits v))) |||
            (1 <<< (first_set v).toNat)
        else autToNat (convergeLoop 32770 0 (autNew (without_leading_bits v)))) = _
      rw [hn]

/-- Witness for C3 at `v = 1184`. -/
theorem apply_wart_stage2_spec_witness :
    apply_wart 1184 = apply_automaton (apply_wart_stage_1 1184) ∧
    ((1184 : Nat) = 0 → first_set 1184 = -1) ∧
    ∃ n : Nat,
      autNext (autNext^[n] (autNew (without_leading_bits 1184))) =
        autNext^[n] (autNew (without_leading_bits 1184)) ∧
      apply_automaton 1184 =
        (if 0 ≤ first_set 1184 then
          autToNat (autNext^[n] (autNew (without_leading_bits 1184))) |||
            (1 <<< (first_set 1184).toNat)
        else autToNat (autNext^[n] (autNew (without_leading_bits 1184)))) :=
  apply_wart_stage2_spec 1184 (by decide)

/-- C4: for every one of the 32768 possible 15-bit inputs to the stage-2
fixed-point loop, iterating the automaton's next-generation function from
the loop's starting configuration reaches, within at most 13 generations, a
generation equal to its successor, so the `while` loop terminates. -/
theorem automaton_fixed_point_reached (v : Nat) (hv : v < 32768) :
    ∃ n, n ≤ 13 ∧ autNext^[n + 1] (autNew v) = autNext^[n] (autNew v) :=
  autConvergesAll (autNew v) (autNew_lt v)

/-- Witness for C4 at `v = 21`. -/
theorem automaton_fixed_point_reached_witness :
    ∃ n, n ≤ 13 ∧ autNext^[n + 1] (autNew 21) = autNext^[n] (autNew 21) :=
  automaton_fixed_point_reached 21 (by decide)

/-- C5: the automaton's local rule with true circular indexing (negative
offsets wrap by mathematical modulo, `-1 ≡ 14` and `-2 ≡ 13`): for a set
cell the next generation is `(cell[i+1] ∨ ¬cell[i+2]) ∧ (cell[i-1] ∨
¬cell[i-2])`, for a clear cell it is `cell[i-1] ∧ cell[i+1]`.  The original
configuration is unchanged, which holds trivially in this pure embedding
(`autNext` builds a fresh value). -/
theorem autNext_circular_rule (c : Nat) (hc : c < 32768) (i : Nat) (hi : i < 15) :
    (autNext c).testBit i =
      (if c.testBit i = true then
        (c.testBit (((i : Int) + 1).emod 15).toNat ||
            !c.testBit (((i : Int) + 2).emod 15).toNat) &&
          (c.testBit (((i : Int) - 1).emod 15).toNat ||
            !c.testBit (((i : Int) - 2).emod 15).toNat)
      else
        c.testBit (((i : Int) - 1).emod 15).toNat &&
          c.testBit (((i : Int) + 1).emod 15).toNat) :=
  autNext_rule_eval c i hi

/-- Witness for C5 at `c = 1184`, `i = 0` (checks the negative wrap-around
indices `-1 → 14` and `-2 → 13`). -/
theorem autNext_circular_rule_witness :
    (autNext 1184).testBit 0 =
      (if (1184 : Nat).testBit 0 = true then
        ((1184 : Nat).testBit (((0 : Int) + 1).emod 15).toNat ||
            !(1184 : Nat).testBit (((0 : Int) + 2).emod 15).toNat) &&
          ((1184 : Nat).testBit (((0 : Int) - 1).emod 15).toNat ||
            !(1184 : Nat).testBit (((0 : Int) - 2).emod 15).toNat)
      else
        (1184 : Nat).testBit (((0 : Int) - 1).emod 15).toNat &&
          (1184 : Nat).testBit (((0 : Int) + 1).emod 15).toNat) :=
  autNext_circular_rule 1184 (by decide) 0 (by decide)

/-- C6: 15-bit closure.  Every one of the 8 actions maps a state below
`2 ^ 15` to a state below `2 ^ 15`. -/
theorem actions_preserve_15_bits (s : Nat) (hs : s < 32768) (a : BrewAction) :
    a.apply_to s < 32768 := by
  cases a with
  | AddIngredient i => exact apply_ingredient_lt s hs i
  | Dilute => exact lt_of_le_of_lt (dilute_le s) hs
  | AddNetherWart => exact apply_wart_lt s hs

/-- Witness for C6: the catalyst applied to state 1184 stays below `2 ^ 15`. -/
theorem actions_preserve_15_bits_witness :
    BrewAction.AddNetherWart.apply_to 1184 < 32768 :=
  actions_preserve_15_bits 1184 (by decide) BrewAction.AddNetherWart

/-- C7: dilute only touches bits {1,3,5,7,9,11,13}: every other bit is
unchanged, no bit is ever set, and dilute is idempotent. -/
theorem dilute_frame_and_idempotent (s : Nat) (hs : s < 32768) :
    (∀ i, i ∉ ([1, 3, 5, 7, 9, 11, 13] : List Nat) →
      (dilute s).testBit i = s.testBit i) ∧
    (∀ i, (dilute s).testBit i = true → s.testBit i = true) ∧
    dilute (dilute s) = dilute s :=
  ⟨fun i hi => dilute_frame_bit s hs i hi,
   fun i h => dilute_no_set s i h,
   dilute_idem s⟩

/-- Witness for C7 at `s = 20614`. -/
theorem dilute_frame_and_idempotent_witness :
    (∀ i, i ∉ ([1, 3, 5, 7, 9, 11, 13] : List Nat) →
      (dilute 20614).testBit i = (20614 : Nat).testBit i) ∧
    (∀ i, (dilute 20614).testBit i = true → (20614 : Nat).testBit i = true) ∧
    dilute (dilute 20614) = dilute 20614 :=
  dilute_frame_and_idempotent 20614 (by decide)

/-- C8: the end-to-end scenario: zero state, dilute, add SpiderEye gives
1184; adding the catalyst then gives 1088. -/
theorem water_eye_wart_scenario :
    apply_ingredient (dilute 0) .SpiderEye = 1184 ∧
    apply_wart (apply_ingredient (dilute 0) .SpiderEye) = 1088 := by
  constructor
  · decide
  · decide

/-- C9: the catalyst maps a 15-bit state to zero exactly when the state is
zero: plain water is a fixed point, and no nonzero state collapses to it. -/
theorem apply_wart_zero_iff (s : Nat) (hs : s < 32768) :
    apply_wart s = 0 ↔ s = 0 := by
  constructor
  · intro h
    by_contra hs0
    exact apply_automaton_ne_zero (apply_wart_stage_1 s) (stage1_lt s hs)
      (stage1_ne_zero s hs hs0) h
  · intro h
    subst h
    decide

/-- Witness for C9 at `s = 1184`. -/
theorem apply_wart_zero_iff_witness : (apply_wart 1184 = 0 ↔ (1184 : Nat) = 0) :=
  apply_wart_zero_iff 1184 (by decide)

/-- C10: the value returned by the stage-2 convergence loop is a genuine
fixed point of the automaton rule, despite the previous-generation tracker
starting at the all-false default; the all-false configuration is itself a
fixed point, so the immediate-exit case is also covered. -/
theorem converge_loop_returns_fixed_point (r : Nat) (hr : r < 32768) :
    autNext (convergeLoop 32770 0 (autNew r)) = convergeLoop 32770 0 (autNew r) ∧
    autNext 0 = 0 := by
  refine ⟨?_, by decide⟩
  obtain ⟨n, hn, hfix⟩ := convergeLoop_spec (autNew r) (autConvergesAll _ (autNew_lt r))
  exact hfix

/-- Witness for C10 at `r = 160` (the residual arising in the
water–SpiderEye–wart scenario). -/
theorem converge_loop_returns_fixed_point_witness :
    autNext (convergeLoop 32770 0 (autNew 160)) = convergeLoop 32770 0 (autNew 160) ∧
    autNext 0 = 0 :=
  converge_loop_returns_fixed_point 160 (by decide)
